import Mathlib

/-!
Verification of the ChaCha stream cipher implementation (`chacha.go`).

The Go source is shallowly embedded: the 16 `uint32` state words become a
structure of 16 `Nat` fields kept below `2 ^ 32` by explicit `% 2 ^ 32`
reductions exactly where Go's `uint32` arithmetic wraps; the fallible
`next` method becomes `Except String Cipher`; the `Read` and
`XORKeyStream` loops become structural recursions over the request size;
Go runtime panics (slice bounds, exhausted keystream) are explicit
constructors of the corresponding result types.
-/

set_option maxRecDepth 10000

namespace ChaChaGo

/-- Go `uint32` addition: wrap-around modulo `2 ^ 32`. -/
def add32 (x y : Nat) : Nat := (x + y) % 2 ^ 32

/-- Go `(t << s) | (t >> (32 - s))` on `uint32`: 32-bit left rotation. -/
def rotl32 (t s : Nat) : Nat := ((t <<< s) ||| (t >>> (32 - s))) % 2 ^ 32

/-- The 16 `uint32` words of the cipher state (`input [16]uint32` in the source).
`x0`–`x3` are the sigma constants, `x4`–`x11` the key words, `x12`/`x13` the
low/high counter words, `x14`/`x15` the nonce words. -/
structure Words where
  x0 : Nat
  x1 : Nat
  x2 : Nat
  x3 : Nat
  x4 : Nat
  x5 : Nat
  x6 : Nat
  x7 : Nat
  x8 : Nat
  x9 : Nat
  x10 : Nat
  x11 : Nat
  x12 : Nat
  x13 : Nat
  x14 : Nat
  x15 : Nat
deriving DecidableEq, Repr

/-- The `Cipher` struct of the source: state words, 64-byte output buffer,
cursor `nextByte`, round count and the `eof` exhaustion flag. -/
structure Cipher where
  input : Words
  output : List Nat
  nextByte : Nat
  rounds : Int
  eof : Bool
deriving DecidableEq, Repr

/-- Result of `New`: Go returns `*Cipher`; a key shorter than 32 bytes or an
iv shorter than 8 bytes makes one of the `binary.LittleEndian.Uint32` slice
accesses panic with a runtime bounds error, modelled by `indexPanic`. -/
inductive NewResult where
  | ok (c : Cipher)
  | indexPanic
deriving DecidableEq, Repr

/-- `binary.LittleEndian.Uint32(bs[off:])`, the value read when the slice
access is in bounds. -/
def le32v (bs : List Nat) (off : Nat) : Nat :=
  bs.getD off 0 ||| (bs.getD (off + 1) 0) <<< 8 |||
    (bs.getD (off + 2) 0) <<< 16 ||| (bs.getD (off + 3) 0) <<< 24

/-- `New(key, iv []byte, rounds int) *Cipher`. The eight key reads need
`len(key) ≥ 32` and the two iv reads need `len(iv) ≥ 8`; otherwise the Go
slice indexing panics (`indexPanic`). Counter words are zero (Go zero value),
the cursor starts at `len(output) = 64`. -/
def New (key iv : List Nat) (rounds : Int) : NewResult :=
  if 32 ≤ key.length ∧ 8 ≤ iv.length then
    .ok
      { input :=
          { x0 := 0x61707865, x1 := 0x3320646e, x2 := 0x79622d32, x3 := 0x6b206574,
            x4 := le32v key 0, x5 := le32v key 4, x6 := le32v key 8, x7 := le32v key 12,
            x8 := le32v key 16, x9 := le32v key 20, x10 := le32v key 24, x11 := le32v key 28,
            x12 := 0, x13 := 0,
            x14 := le32v iv 0, x15 := le32v iv 4 },
        output := List.replicate 64 0,
        nextByte := 64,
        rounds := rounds,
        eof := false }
  else .indexPanic

/-- The body of the round loop in `next`: the flat-variable double round,
statement for statement. The Go locals `a b c1 d e f g h i j k l m n o p`
are `x0 … x15` in order. -/
def doubleRound (s : Words) : Words :=
  let a := s.x0
  let b := s.x1
  let c1 := s.x2
  let d := s.x3
  let e := s.x4
  let f := s.x5
  let g := s.x6
  let h := s.x7
  let i := s.x8
  let j := s.x9
  let k := s.x10
  let l := s.x11
  let m := s.x12
  let n := s.x13
  let o := s.x14
  let p := s.x15
  -- column quarter round on (a, e, i, m)
  let a := add32 a e
  let t := m ^^^ a
  let m := rotl32 t 16
  let i := add32 i m
  let t := e ^^^ i
  let e := rotl32 t 12
  let a := add32 a e
  let t := m ^^^ a
  let m := rotl32 t 8
  let i := add32 i m
  let t := e ^^^ i
  let e := rotl32 t 7
  -- column quarter round on (b, f, j, n)
  let b := add32 b f
  let t := n ^^^ b
  let n := rotl32 t 16
  let j := add32 j n
  let t := f ^^^ j
  let f := rotl32 t 12
  let b := add32 b f
  let t := n ^^^ b
  let n := rotl32 t 8
  let j := add32 j n
  let t := f ^^^ j
  let f := rotl32 t 7
  -- column quarter round on (c1, g, k, o)
  let c1 := add32 c1 g
  let t := o ^^^ c1
  let o := rotl32 t 16
  let k := add32 k o
  let t := g ^^^ k
  let g := rotl32 t 12
  let c1 := add32 c1 g
  let t := o ^^^ c1
  let o := rotl32 t 8
  let k := add32 k o
  let t := g ^^^ k
  let g := rotl32 t 7
  -- column quarter round on (d, h, l, p)
  let d := add32 d h
  let t := p ^^^ d
  let p := rotl32 t 16
  let l := add32 l p
  let t := h ^^^ l
  let h := rotl32 t 12
  let d := add32 d h
  let t := p ^^^ d
  let p := rotl32 t 8
  let l := add32 l p
  let t := h ^^^ l
  let h := rotl32 t 7
  -- diagonal quarter round on (a, f, k, p)
  let a := add32 a f
  let t := p ^^^ a
  let p := rotl32 t 16
  let k := add32 k p
  let t := f ^^^ k
  let f := rotl32 t 12
  let a := add32 a f
  let t := p ^^^ a
  let p := rotl32 t 8
  let k := add32 k p
  let t := f ^^^ k
  let f := rotl32 t 7
  -- diagonal quarter round on (b, g, l, m)
  let b := add32 b g
  let t := m ^^^ b
  let m := rotl32 t 16
  let l := add32 l m
  let t := g ^^^ l
  let g := rotl32 t 12
  let b := add32 b g
  let t := m ^^^ b
  let m := rotl32 t 8
  let l := add32 l m
  let t := g ^^^ l
  let g := rotl32 t 7
  -- diagonal quarter round on (c1, h, i, n)
  let c1 := add32 c1 h
  let t := n ^^^ c1
  let n := rotl32 t 16
  let i := add32 i n
  let t := h ^^^ i
  let h := rotl32 t 12
  let c1 := add32 c1 h
  let t := n ^^^ c1
  let n := rotl32 t 8
  let i := add32 i n
  let t := h ^^^ i
  let h := rotl32 t 7
  -- diagonal quarter round on (d, e, j, o)
  let d := add32 d e
  let t := o ^^^ d
  let o := rotl32 t 16
  let j := add32 j o
  let t := e ^^^ j
  let e := rotl32 t 12
  let d := add32 d e
  let t := o ^^^ d
  let o := rotl32 t 8
  let j := add32 j o
  let t := e ^^^ j
  let e := rotl32 t 7
  { x0 := a, x1 := b, x2 := c1, x3 := d,
    x4 := e, x5 := f, x6 := g, x7 := h,
    x8 := i, x9 := j, x10 := k, x11 := l,
    x12 := m, x13 := n, x14 := o, x15 := p }

/-- The loop `for z := c.rounds; z > 0; z -= 2 { body }` executes the body
`⌈n / 2⌉` times where `n = max(z, 0)`; structural recursion on that `Nat`. -/
def roundLoopN (n : Nat) (s : Words) : Words :=
  match n with
  | 0 => s
  | 1 => doubleRound s
  | n + 2 => roundLoopN n (doubleRound s)

/-- The round loop of `next` on the Go `int` round count. -/
def roundLoop (z : Int) (s : Words) : Words := roundLoopN z.toNat s

/-- The feed-forward step of `next`: each working word plus the
corresponding original state word (`uint32` addition). -/
def ffWords (w v : Words) : Words :=
  { x0 := add32 w.x0 v.x0, x1 := add32 w.x1 v.x1, x2 := add32 w.x2 v.x2,
    x3 := add32 w.x3 v.x3, x4 := add32 w.x4 v.x4, x5 := add32 w.x5 v.x5,
    x6 := add32 w.x6 v.x6, x7 := add32 w.x7 v.x7, x8 := add32 w.x8 v.x8,
    x9 := add32 w.x9 v.x9, x10 := add32 w.x10 v.x10, x11 := add32 w.x11 v.x11,
    x12 := add32 w.x12 v.x12, x13 := add32 w.x13 v.x13, x14 := add32 w.x14 v.x14,
    x15 := add32 w.x15 v.x15 }

/-- `binary.LittleEndian.PutUint32`: the four little-endian bytes of a word. -/
def le32bytes (w : Nat) : List Nat :=
  [w % 256, (w >>> 8) % 256, (w >>> 16) % 256, (w >>> 24) % 256]

/-- `PutUint32(c.output[4*i:], wordI)` for i = 0 … 15: word i at byte offset 4*i. -/
def serialize16 (w : Words) : List Nat :=
  le32bytes w.x0 ++ le32bytes w.x1 ++ le32bytes w.x2 ++ le32bytes w.x3 ++
    le32bytes w.x4 ++ le32bytes w.x5 ++ le32bytes w.x6 ++ le32bytes w.x7 ++
    le32bytes w.x8 ++ le32bytes w.x9 ++ le32bytes w.x10 ++ le32bytes w.x11 ++
    le32bytes w.x12 ++ le32bytes w.x13 ++ le32bytes w.x14 ++ le32bytes w.x15

/-- The successful body of `next`: run the rounds, feed-forward, serialize,
advance the 64-bit counter `(uint64(input[13])<<32 | uint64(input[12])) + 1`
(`uint64` wrap-around; on wrap to 0 set `eof`), reset the cursor. -/
def nextBody (c : Cipher) : Cipher :=
  let w := roundLoop c.rounds c.input
  let out := serialize16 (ffWords w c.input)
  let ctr := ((c.input.x13 <<< 32 ||| c.input.x12) + 1) % 2 ^ 64
  { input := { c.input with x12 := ctr % 2 ^ 32, x13 := (ctr >>> 32) % 2 ^ 32 },
    output := out,
    nextByte := 0,
    rounds := c.rounds,
    eof := if ctr = 0 then true else c.eof }

/-- `func (c *Cipher) next() error`: fails when `eof` is already set,
otherwise generates the next block. -/
def next (c : Cipher) : Except String Cipher :=
  if c.eof then .error "exhausted keystream" else .ok (nextBody c)

/-- `func (c *Cipher) Seek(n uint64)`: store `n` into the counter words,
clear `eof`, regenerate (the `next` call always succeeds and its error,
were there one, would be discarded). -/
def Seek (c : Cipher) (n : Nat) : Cipher :=
  let c1 : Cipher :=
    { c with
      input := { c.input with x12 := n % 2 ^ 32, x13 := (n >>> 32) % 2 ^ 32 },
      eof := false }
  match next c1 with
  | .ok c2 => c2
  | .error _ => c1

/-- The common prelude of the `Read` and `XORKeyStream` loops:
`if c.nextByte >= len(c.output) { if err := c.next(); err != nil { … } }`
(`len(c.output)` is the fixed array length 64). -/
def ensure (c : Cipher) : Except String Cipher :=
  if 64 ≤ c.nextByte then next c else .ok c

/-- `c.nextByte++`. -/
def advance (c : Cipher) : Cipher := { c with nextByte := c.nextByte + 1 }

/-- Result of `Read`: final cipher, the bytes written into `p`
(`bytes.length` is Go's return value `n`), and whether `io.EOF` was
returned. -/
structure ReadResult where
  c : Cipher
  bytes : List Nat
  isEOF : Bool
deriving DecidableEq, Repr

/-- `func (c *Cipher) Read(p []byte) (int, error)` with `k = len(p)`:
serve bytes from the buffer, regenerating on exhaustion; when `next`
fails, return the bytes written so far together with `io.EOF`. -/
def Read (c : Cipher) (k : Nat) : ReadResult :=
  match k with
  | 0 => ⟨c, [], false⟩
  | k + 1 =>
    match ensure c with
    | .error _ => ⟨c, [], true⟩
    | .ok c1 =>
      let b := c1.output.getD c1.nextByte 0
      let r := Read (advance c1) k
      ⟨r.c, b :: r.bytes, r.isEOF⟩

/-- Result of `XORKeyStream`: normal return with the bytes written to
`dst`, a `panic(err)` from an exhausted keystream, or the runtime
index-out-of-range panic from `src[i]` when `src` is shorter than `dst`. -/
inductive XorResult where
  | ok (c : Cipher) (dst : List Nat)
  | panicked (msg : String)
  | indexPanic
deriving DecidableEq, Repr

/-- `func (c *Cipher) XORKeyStream(dst, src []byte)`: iterates over
`len(dst)`; on keystream exhaustion it panics; `dst[i] = src[i] ^
c.output[c.nextByte]` panics with an index error when `i ≥ len(src)`. -/
def XORKeyStream (c : Cipher) (dst src : List Nat) : XorResult :=
  match dst with
  | [] => .ok c []
  | _ :: ds =>
    match ensure c with
    | .error e => .panicked e
    | .ok c1 =>
      match src with
      | [] => .indexPanic
      | s :: ss =>
        match XORKeyStream (advance c1) ds ss with
        | .ok c2 out => .ok c2 ((s ^^^ c1.output.getD c1.nextByte 0) :: out)
        | r => r

/-- The 64-bit block counter `(words[13]<<32 | words[12])`. -/
def counter64 (c : Cipher) : Nat := c.input.x13 <<< 32 ||| c.input.x12

/-! Reference (spec-side) round definitions, following the specification's
words: the four-step quarter round over `(a, b, c, d)`, a column round and a
diagonal round over the word groupings, and the block built from `r / 2`
double rounds plus feed-forward and little-endian serialization. -/

/-- Modelled from the spec: the quarter round
`a += b; d ^= a; d = rotl(d,16); c += d; b ^= c; b = rotl(b,12);
a += b; d ^= a; d = rotl(d,8); c += d; b ^= c; b = rotl(b,7)`,
all modulo `2 ^ 32`. -/
def quarterRound : Nat × Nat × Nat × Nat → Nat × Nat × Nat × Nat :=
  fun (a, b, c, d) =>
    let a := add32 a b
    let d := rotl32 (d ^^^ a) 16
    let c := add32 c d
    let b := rotl32 (b ^^^ c) 12
    let a := add32 a b
    let d := rotl32 (d ^^^ a) 8
    let c := add32 c d
    let b := rotl32 (b ^^^ c) 7
    (a, b, c, d)

/-- Modelled from the spec: the column round, four independent quarter
rounds on the columns `(0,4,8,12) (1,5,9,13) (2,6,10,14) (3,7,11,15)`. -/
def columnRound (s : Words) : Words :=
  match quarterRound (s.x0, s.x4, s.x8, s.x12), quarterRound (s.x1, s.x5, s.x9, s.x13),
      quarterRound (s.x2, s.x6, s.x10, s.x14), quarterRound (s.x3, s.x7, s.x11, s.x15) with
  | (a0, b0, c0, d0), (a1, b1, c1, d1), (a2, b2, c2, d2), (a3, b3, c3, d3) =>
    { x0 := a0, x1 := a1, x2 := a2, x3 := a3,
      x4 := b0, x5 := b1, x6 := b2, x7 := b3,
      x8 := c0, x9 := c1, x10 := c2, x11 := c3,
      x12 := d0, x13 := d1, x14 := d2, x15 := d3 }

/-- Modelled from the spec: the diagonal round, four quarter rounds on the
diagonals `(0,5,10,15) (1,6,11,12) (2,7,8,13) (3,4,9,14)`. -/
def diagonalRound (s : Words) : Words :=
  match quarterRound (s.x0, s.x5, s.x10, s.x15), quarterRound (s.x1, s.x6, s.x11, s.x12),
      quarterRound (s.x2, s.x7, s.x8, s.x13), quarterRound (s.x3, s.x4, s.x9, s.x14) with
  | (a0, b0, c0, d0), (a1, b1, c1, d1), (a2, b2, c2, d2), (a3, b3, c3, d3) =>
    { x0 := a0, x5 := b0, x10 := c0, x15 := d0,
      x1 := a1, x6 := b1, x11 := c1, x12 := d1,
      x2 := a2, x7 := b2, x8 := c2, x13 := d2,
      x3 := a3, x4 := b3, x9 := c3, x14 := d3 }

/-- Modelled from the spec: one double round = column round then diagonal
round. -/
def doubleRoundRef (s : Words) : Words := diagonalRound (columnRound s)

/-- Modelled from the spec: the reference block for an even positive round
count `r` — copy the state, run `r / 2` double rounds, feed-forward into the
original words, serialize the 16 result words little-endian. -/
def refBlock (w : Words) (r : Int) : List Nat :=
  serialize16 (ffWords (doubleRoundRef^[(r / 2).toNat] w) w)

/-- The ciphers reachable from `a` by any sequence of the implementation's
operations (block generation, seek, sequential read, XOR transform). -/
inductive Reaches : Cipher → Cipher → Prop where
  | refl (a : Cipher) : Reaches a a
  | step_next (a c c' : Cipher) : Reaches a c → next c = .ok c' → Reaches a c'
  | step_seek (a c : Cipher) (n : Nat) : Reaches a c → Reaches a (Seek c n)
  | step_read (a c : Cipher) (k : Nat) : Reaches a c → Reaches a (Read c k).c
  | step_xor (a c c' : Cipher) (dst src out : List Nat) :
      Reaches a c → XORKeyStream c dst src = .ok c' out → Reaches a c'

/-! Concrete fixtures for the test-vector theorem and for witnesses. -/

/-- All-zero 32-byte key. -/
def zeroKey : List Nat := List.replicate 32 0

/-- All-zero 8-byte nonce. -/
def zeroNonce : List Nat := List.replicate 8 0

/-- Fallback cipher used only to destructure `NewResult` fixtures. -/
def dummyCipher : Cipher :=
  { input := { x0 := 0, x1 := 0, x2 := 0, x3 := 0, x4 := 0, x5 := 0, x6 := 0, x7 := 0,
               x8 := 0, x9 := 0, x10 := 0, x11 := 0, x12 := 0, x13 := 0, x14 := 0, x15 := 0 },
    output := [], nextByte := 0, rounds := 0, eof := false }

/-- Extract the cipher from a successful construction. -/
def okOr (r : NewResult) (d : Cipher) : Cipher :=
  match r with
  | .ok c => c
  | .indexPanic => d

/-- Fresh 20-round cipher with all-zero key and nonce. -/
def fresh20 : Cipher := okOr (New zeroKey zeroNonce 20) dummyCipher

/-- Fresh 0-round cipher with all-zero key and nonce (cheap fixture). -/
def fresh0 : Cipher := okOr (New zeroKey zeroNonce 0) dummyCipher

/-- Fresh 2-round cipher with all-zero key and nonce (cheap fixture). -/
def fresh2 : Cipher := okOr (New zeroKey zeroNonce 2) dummyCipher

/-- The published ChaCha20 keystream test vector: block 0 for the all-zero
32-byte key and all-zero 8-byte nonce. -/
def chacha20Block0 : List Nat :=
  [0x76, 0xb8, 0xe0, 0xad, 0xa0, 0xf1, 0x3d, 0x90, 0x40, 0x5d, 0x6a, 0xe5, 0x53, 0x86, 0xbd, 0x28,
   0xbd, 0xd2, 0x19, 0xb8, 0xa0, 0x8d, 0xed, 0x1a, 0xa8, 0x36, 0xef, 0xcc, 0x8b, 0x77, 0x0d, 0xc7,
   0xda, 0x41, 0x59, 0x7c, 0x51, 0x57, 0x48, 0x8d, 0x77, 0x24, 0xe0, 0x3f, 0xb8, 0xd8, 0x4a, 0x37,
   0x6a, 0x43, 0xb8, 0xf4, 0x15, 0x18, 0xa1, 0x1c, 0xc3, 0x87, 0xb6, 0x69, 0xb2, 0xee, 0x65, 0x86]

/-- Extract the cipher from a successful `next`. -/
def exceptOr (r : Except String Cipher) (d : Cipher) : Cipher :=
  match r with
  | .ok c => c
  | .error _ => d

/-! ## Helper lemmas -/

theorem shiftLeft32_lor (h l : Nat) (hl : l < 2 ^ 32) :
    h <<< 32 ||| l = h * 2 ^ 32 + l := by
  apply Nat.eq_of_testBit_eq
  intro i
  rw [Nat.testBit_lor, Nat.testBit_shiftLeft]
  rcases Nat.lt_or_ge i 32 with hi | hi
  · have hb : (h * 2 ^ 32 + l).testBit i = l.testBit i := by
      have hmod : (h * 2 ^ 32 + l) % 2 ^ 32 = l := by
        rw [Nat.mul_comm h, Nat.mul_add_mod, Nat.mod_eq_of_lt hl]
      calc (h * 2 ^ 32 + l).testBit i
          = ((h * 2 ^ 32 + l) % 2 ^ 32).testBit i := by
            rw [Nat.testBit_mod_two_pow]
            simp [hi]
        _ = l.testBit i := by rw [hmod]
    rw [hb]
    simp [Nat.not_le.mpr hi]
  · have hl' : l.testBit i = false :=
      Nat.testBit_lt_two_pow (lt_of_lt_of_le hl (Nat.pow_le_pow_right (by omega) hi))
    have hdiv : (h * 2 ^ 32 + l) >>> 32 = h := by
      rw [Nat.shiftRight_eq_div_pow, Nat.mul_comm h, Nat.mul_add_div (by positivity),
        Nat.div_eq_of_lt hl]
      omega
    have hb : (h * 2 ^ 32 + l).testBit i = h.testBit (i - 32) := by
      have h32 : 32 + (i - 32) = i := by omega
      rw [← h32, ← Nat.testBit_shiftRight, hdiv]
      congr 1
      omega
    rw [hb, hl']
    simp [hi]

theorem serialize16_length (w : Words) : (serialize16 w).length = 64 := by
  simp [serialize16, le32bytes]

theorem next_ok_elim {c c' : Cipher} (h : next c = Except.ok c') :
    c.eof = false ∧ c' = nextBody c := by
  rw [next] at h
  split at h
  · exact absurd h (by simp)
  · next hc => exact ⟨by simpa using hc, by injection h with h'; exact h'.symm⟩

theorem next_error_elim {c : Cipher} {e : String} (h : next c = Except.error e) :
    c.eof = true ∧ e = "exhausted keystream" := by
  rw [next] at h
  split at h
  · next hc => exact ⟨by simpa using hc, by injection h with h'; exact h'.symm⟩
  · exact absurd h (by simp)

theorem next_of_eof_false {c : Cipher} (h : c.eof = false) :
    next c = Except.ok (nextBody c) := by
  rw [next, if_neg (by simp [h])]

theorem nextBody_nextByte (c : Cipher) : (nextBody c).nextByte = 0 := rfl

theorem nextBody_rounds (c : Cipher) : (nextBody c).rounds = c.rounds := rfl

theorem nextBody_output (c : Cipher) :
    (nextBody c).output = serialize16 (ffWords (roundLoop c.rounds c.input) c.input) := rfl

theorem nextBody_output_length (c : Cipher) : (nextBody c).output.length = 64 :=
  serialize16_length _

theorem seek_eq (c : Cipher) (n : Nat) :
    Seek c n =
      nextBody
        { c with
          input := { c.input with x12 := n % 2 ^ 32, x13 := (n >>> 32) % 2 ^ 32 },
          eof := false } := by
  rw [Seek, next_of_eof_false rfl]

theorem read_succ (c : Cipher) (k : Nat) :
    Read c (k + 1) =
      match ensure c with
      | .error _ => ⟨c, [], true⟩
      | .ok c1 =>
        ⟨(Read (advance c1) k).c,
          c1.output.getD c1.nextByte 0 :: (Read (advance c1) k).bytes,
          (Read (advance c1) k).isEOF⟩ := rfl

theorem xor_succ (c : Cipher) (d : Nat) (ds src : List Nat) :
    XORKeyStream c (d :: ds) src =
      match ensure c with
      | .error e => .panicked e
      | .ok c1 =>
        match src with
        | [] => .indexPanic
        | s :: ss =>
          match XORKeyStream (advance c1) ds ss with
          | .ok c2 out => .ok c2 ((s ^^^ c1.output.getD c1.nextByte 0) :: out)
          | r => r := rfl

theorem ensure_ok_lt {c c1 : Cipher} (h : ensure c = Except.ok c1) :
    c1.nextByte < 64 := by
  rw [ensure] at h
  split at h
  · obtain ⟨-, rfl⟩ := next_ok_elim h
    simp [nextBody_nextByte]
  · next hg =>
    injection h with h'
    subst h'
    omega

theorem ensure_error_elim {c : Cipher} {e : String} (h : ensure c = Except.error e) :
    64 ≤ c.nextByte ∧ c.eof = true ∧ e = "exhausted keystream" := by
  rw [ensure] at h
  split at h
  · next hg => exact ⟨hg, next_error_elim h⟩
  · exact absurd h (by simp)

theorem ensure_of_served {c : Cipher} (h : c.nextByte < 64) :
    ensure c = Except.ok c := by
  rw [ensure, if_neg (by omega)]

theorem ensure_of_exhausted {c : Cipher} (hnb : 64 ≤ c.nextByte) (he : c.eof = true) :
    ensure c = Except.error "exhausted keystream" := by
  rw [ensure, if_pos hnb, next, if_pos (by simp [he])]

theorem getD_take (l : List Nat) (n i : Nat) (h : i < n) :
    (l.take n).getD i 0 = l.getD i 0 := by
  simp [List.getD_eq_getElem?_getD, List.getElem?_take, h]

theorem le32v_take (l : List Nat) (n off : Nat) (h : off + 3 < n) :
    le32v (l.take n) off = le32v l off := by
  rw [le32v, le32v, getD_take l n off (by omega), getD_take l n (off + 1) (by omega),
    getD_take l n (off + 2) (by omega), getD_take l n (off + 3) (by omega)]

theorem roundLoopN_iterate (n : Nat) (s : Words) :
    roundLoopN n s = doubleRound^[(n + 1) / 2] s := by
  induction n using Nat.strong_induction_on generalizing s with
  | _ n ih =>
    match n with
    | 0 => simp [roundLoopN]
    | 1 => simp [roundLoopN]
    | n + 2 =>
      rw [show roundLoopN (n + 2) s = roundLoopN n (doubleRound s) from rfl,
        ih n (by omega)]
      have h2 : (n + 2 + 1) / 2 = (n + 1) / 2 + 1 := by omega
      rw [h2, Function.iterate_succ_apply]

theorem doubleRound_eq_ref : doubleRound = doubleRoundRef := rfl

/-! ## Claim C1 -/

/-- Claim C1: For rounds = 20, a key of 32 zero bytes, and a nonce of 8 zero
bytes, the first 64 keystream bytes produced for block 0 (the first block
generated after construction) equal the published reference ChaCha20 test
vector for this parameterization. -/
theorem C1_chacha20_zero_test_vector :
    New zeroKey zeroNonce 20 = NewResult.ok fresh20 ∧
    (Read fresh20 64).bytes = chacha20Block0 :=
  ⟨rfl, rfl⟩

/-! ## Claim C2 -/

/-- Claim C2: For every state and every even round count r > 0, the block
transform equals the reference algorithm: r / 2 double rounds (column round
then diagonal round built from the four-step quarter round), feed-forward
into the original state words, little-endian serialization of word i at byte
offset 4 * i; the flat-variable double round is equal to the quarter-round
based reference definition. -/
theorem C2_next_matches_reference (c c' : Cipher) (hpos : 0 < c.rounds)
    (heven : c.rounds % 2 = 0) (h : next c = Except.ok c') :
    c'.output = refBlock c.input c.rounds ∧ doubleRound = doubleRoundRef := by
  obtain ⟨-, rfl⟩ := next_ok_elim h
  refine ⟨?_, rfl⟩
  rw [nextBody_output, refBlock, roundLoop, roundLoopN_iterate]
  have h1 : (c.rounds.toNat + 1) / 2 = (c.rounds / 2).toNat := by omega
  rw [h1, doubleRound_eq_ref]

/-- Result of generating one block on the fresh 2-round cipher. -/
def c2w : Cipher := exceptOr (next fresh2) dummyCipher

/-- Witness for C2 at the concrete 2-round all-zero cipher. -/
theorem C2_witness :
    c2w.output = refBlock fresh2.input fresh2.rounds ∧ doubleRound = doubleRoundRef :=
  C2_next_matches_reference fresh2 c2w (by decide) (by decide) rfl

/-! ## Claim C3 -/

/-- Claim C3 counterexample: construction with a 31-byte key (or a 7-byte
nonce) does not return an `InvalidKeyLength`/`InvalidNonceLength` error —
no such error values exist; the slice reads go out of bounds and the
construction ends in a runtime index panic. -/
theorem C3_counterexample :
    New (List.replicate 31 0) zeroNonce 20 = NewResult.indexPanic ∧
    New zeroKey (List.replicate 7 0) 20 = NewResult.indexPanic :=
  ⟨rfl, rfl⟩

/-- Claim C3 (amended): construction with a key shorter than 32 bytes or a
nonce shorter than 8 bytes fails with a runtime index-out-of-range panic
from the slice accesses (there is no `InvalidKeyLength`/`InvalidNonceLength`
error); with a key of at least 32 bytes and a nonce of at least 8 bytes,
construction always yields a cipher and uses only the first 32 key bytes
and first 8 nonce bytes. -/
theorem C3_construction_length_behavior (key iv : List Nat) (r : Int) :
    (32 ≤ key.length → 8 ≤ iv.length →
      New key iv r = New (key.take 32) (iv.take 8) r ∧
      New key iv r ≠ NewResult.indexPanic) ∧
    (key.length < 32 ∨ iv.length < 8 → New key iv r = NewResult.indexPanic) := by
  constructor
  · intro hk hi
    constructor
    · rw [New, New, if_pos ⟨hk, hi⟩,
        if_pos ⟨by simp [List.length_take]; omega, by simp [List.length_take]; omega⟩,
        le32v_take key 32 0 (by omega), le32v_take key 32 4 (by omega),
        le32v_take key 32 8 (by omega), le32v_take key 32 12 (by omega),
        le32v_take key 32 16 (by omega), le32v_take key 32 20 (by omega),
        le32v_take key 32 24 (by omega), le32v_take key 32 28 (by omega),
        le32v_take iv 8 0 (by omega), le32v_take iv 8 4 (by omega)]
    · rw [New, if_pos ⟨hk, hi⟩]
      simp
  · intro hshort
    rw [New, if_neg (by omega)]

/-- Witness for C3 (amended) at the concrete zero key and nonce. -/
theorem C3_witness :
    New zeroKey zeroNonce 20 = New (zeroKey.take 32) (zeroNonce.take 8) 20 ∧
    New zeroKey zeroNonce 20 ≠ NewResult.indexPanic :=
  (C3_construction_length_behavior zeroKey zeroNonce 20).1 (by decide) (by decide)

/-! ## Claim C4 -/

/-- Claim C4: every successful block generation increments the 64-bit
counter `(words[13]<<32 | words[12])` by exactly 1 (modulo 2^64); on
overflow past the maximum the exhausted flag is set but the block just
produced is valid (written to the output buffer, cursor reset), and only the
next generation attempt fails; without overflow the flag stays clear. -/
theorem C4_counter_increment (c c' : Cipher) (h12 : c.input.x12 < 2 ^ 32)
    (h13 : c.input.x13 < 2 ^ 32) (h : next c = Except.ok c') :
    counter64 c' = (counter64 c + 1) % 2 ^ 64 ∧
    c'.nextByte = 0 ∧ c'.output.length = 64 ∧
    (counter64 c = 2 ^ 64 - 1 →
      c'.eof = true ∧ next c' = Except.error "exhausted keystream") ∧
    (counter64 c < 2 ^ 64 - 1 → c'.eof = false) := by
  obtain ⟨he, rfl⟩ := next_ok_elim h
  have hN : counter64 c = c.input.x13 * 2 ^ 32 + c.input.x12 := by
    rw [counter64, shiftLeft32_lor _ _ h12]
  have hNlt : counter64 c < 2 ^ 64 := by
    rw [hN]
    have : (2 : Nat) ^ 64 = 2 ^ 32 * 2 ^ 32 := by norm_num
    nlinarith
  set ctr := ((c.input.x13 <<< 32 ||| c.input.x12) + 1) % 2 ^ 64 with hctr
  have hctr' : ctr = (counter64 c + 1) % 2 ^ 64 := rfl
  have hctrlt : ctr < 2 ^ 64 := Nat.mod_lt _ (by positivity)
  have hx12 : (nextBody c).input.x12 = ctr % 2 ^ 32 := rfl
  have hx13 : (nextBody c).input.x13 = (ctr >>> 32) % 2 ^ 32 := rfl
  have heof' : (nextBody c).eof = if ctr = 0 then true else c.eof := rfl
  refine ⟨?_, rfl, nextBody_output_length c, ?_, ?_⟩
  · rw [counter64, hx12, hx13, shiftLeft32_lor _ _ (Nat.mod_lt _ (by positivity)),
      Nat.shiftRight_eq_div_pow]
    have hd : ctr / 2 ^ 32 < 2 ^ 32 := by omega
    rw [Nat.mod_eq_of_lt hd, hctr']
    omega
  · intro hmax
    have hc0 : ctr = 0 := by rw [hctr']; omega
    have heof : (nextBody c).eof = true := by rw [heof', if_pos hc0]
    exact ⟨heof, by rw [next, if_pos (by simp [heof])]⟩
  · intro hlt
    have hc0 : ctr ≠ 0 := by rw [hctr']; omega
    rw [heof', if_neg hc0]
    exact he

/-- Result of generating one block on the fresh 0-round cipher. -/
def c4w : Cipher := exceptOr (next fresh0) dummyCipher

/-- Witness for C4 at the concrete fresh 0-round cipher. -/
theorem C4_witness :
    counter64 c4w = (counter64 fresh0 + 1) % 2 ^ 64 ∧
    c4w.nextByte = 0 ∧ c4w.output.length = 64 ∧
    (counter64 fresh0 = 2 ^ 64 - 1 →
      c4w.eof = true ∧ next c4w = Except.error "exhausted keystream") ∧
    (counter64 fresh0 < 2 ^ 64 - 1 → c4w.eof = false) :=
  C4_counter_increment fresh0 c4w (by decide) (by decide) rfl

/-! ## Claim C5: core preservation and seek determinism -/

/-- The construction-time core of a cipher: all state words except the
counter pair, plus the round count. No operation ever changes it. -/
def coreOf (c : Cipher) : Words × Int :=
  ({ c.input with x12 := 0, x13 := 0 }, c.rounds)

theorem advance_nextByte (c : Cipher) : (advance c).nextByte = c.nextByte + 1 := rfl

theorem advance_output (c : Cipher) : (advance c).output = c.output := rfl

theorem advance_core (c : Cipher) : coreOf (advance c) = coreOf c := rfl

theorem nextBody_core (c : Cipher) : coreOf (nextBody c) = coreOf c := rfl

theorem next_core {c c' : Cipher} (h : next c = Except.ok c') : coreOf c' = coreOf c := by
  obtain ⟨-, rfl⟩ := next_ok_elim h
  rfl

theorem ensure_core {c c1 : Cipher} (h : ensure c = Except.ok c1) : coreOf c1 = coreOf c := by
  rw [ensure] at h
  split at h
  · exact next_core h
  · injection h with h'
    subst h'
    rfl

theorem seek_core (c : Cipher) (n : Nat) : coreOf (Seek c n) = coreOf c := by
  rw [seek_eq]
  rfl

theorem read_core (k : Nat) : ∀ c : Cipher, coreOf (Read c k).c = coreOf c := by
  induction k with
  | zero => intro c; rfl
  | succ k ih =>
    intro c
    rw [read_succ]
    cases hE : ensure c with
    | error e => rfl
    | ok c1 =>
      show coreOf (Read (advance c1) k).c = coreOf c
      rw [ih (advance c1), advance_core, ensure_core hE]

theorem xor_core : ∀ (dst src : List Nat) (c c' : Cipher) (out : List Nat),
    XORKeyStream c dst src = XorResult.ok c' out → coreOf c' = coreOf c := by
  intro dst
  induction dst with
  | nil =>
    intro src c c' out h
    rw [XORKeyStream] at h
    injection h with h1 h2
    subst h1
    rfl
  | cons d ds ih =>
    intro src c c' out h
    rw [xor_succ] at h
    split at h
    · exact absurd h (by simp)
    · next c1 hE =>
      split at h
      · exact absurd h (by simp)
      · next s ss =>
        split at h
        · next c2 out2 hR =>
          injection h with h1 h2
          subst h1
          rw [ih ss (advance c1) c2 out2 hR, advance_core, ensure_core hE]
        · next hR =>
          exact (hR c' out h).elim

theorem seek_congr {c d : Cipher} (h : coreOf c = coreOf d) (n : Nat) :
    Seek c n = Seek d n := by
  obtain ⟨⟨i0, i1, i2, i3, i4, i5, i6, i7, i8, i9, i10, i11, i12, i13, i14, i15⟩,
    out, nb, r, e⟩ := c
  obtain ⟨⟨j0, j1, j2, j3, j4, j5, j6, j7, j8, j9, j10, j11, j12, j13, j14, j15⟩,
    out', nb', r', e'⟩ := d
  simp only [coreOf, Prod.mk.injEq, Words.mk.injEq, and_true, true_and] at h
  obtain ⟨⟨h0, h1, h2, h3, h4, h5, h6, h7, h8, h9, h10, h11, h14, h15⟩, hr⟩ := h
  subst h0 h1 h2 h3 h4 h5 h6 h7 h8 h9 h10 h11 h14 h15 hr
  rfl

theorem reaches_core {a c : Cipher} (h : Reaches a c) : coreOf c = coreOf a := by
  induction h with
  | refl => rfl
  | step_next c c' hr hn ih => rw [next_core hn, ih]
  | step_seek c n hr ih => rw [seek_core, ih]
  | step_read c k hr ih => rw [read_core, ih]
  | step_xor c c' dst src out hr hx ih => rw [xor_core dst src c c' out hx, ih]

theorem read_drain (k : Nat) : ∀ c : Cipher, c.output.length = 64 → c.nextByte + k ≤ 64 →
    (Read c k).bytes = (c.output.drop c.nextByte).take k := by
  induction k with
  | zero =>
    intro c hlen h
    simp [Read]
  | succ k ih =>
    intro c hlen h
    have hnb : c.nextByte < c.output.length := by omega
    rw [read_succ, ensure_of_served (by omega)]
    show c.output.getD c.nextByte 0 :: (Read (advance c) k).bytes =
      (c.output.drop c.nextByte).take (k + 1)
    rw [ih (advance c) hlen (by rw [advance_nextByte]; omega)]
    rw [advance_output, advance_nextByte, List.drop_eq_getElem_cons hnb,
      List.take_succ_cons, List.getD_eq_getElem?_getD, List.getElem?_eq_getElem hnb,
      Option.getD_some]

theorem read_64_of_generated (c : Cipher) (h0 : c.nextByte = 0)
    (hlen : c.output.length = 64) : (Read c 64).bytes = c.output := by
  rw [read_drain 64 c hlen (by omega), h0, List.drop_zero, ← hlen, List.take_length]

theorem eq_head_drop (l : List Nat) (hlen : l.length = 64) :
    l = l.getD 0 0 :: (l.drop 1).take 63 := by
  have h0 : 0 < l.length := by omega
  rw [List.getD_eq_getElem?_getD, List.getElem?_eq_getElem h0, Option.getD_some]
  have htake : (l.drop 1).take 63 = l.drop 1 := by
    have hd : (l.drop 1).length = 63 := by rw [List.length_drop]; omega
    rw [← hd, List.take_length]
  rw [htake]
  conv_lhs => rw [← List.drop_zero l]
  exact List.drop_eq_getElem_cons h0

theorem seek_zero_read (c : Cipher) (h12 : c.input.x12 = 0) (h13 : c.input.x13 = 0)
    (he : c.eof = false) (hnb : 64 ≤ c.nextByte) :
    (Read (Seek c 0) 64).bytes = (Read c 64).bytes := by
  have hc1 : ({ c with
      input := { c.input with x12 := 0 % 2 ^ 32, x13 := (0 >>> 32) % 2 ^ 32 },
      eof := false } : Cipher) = c := by
    obtain ⟨⟨i0, i1, i2, i3, i4, i5, i6, i7, i8, i9, i10, i11, i12, i13, i14, i15⟩,
      out, nb, r, e⟩ := c
    simp_all
  rw [seek_eq, hc1, read_64_of_generated (nextBody c) rfl (nextBody_output_length c)]
  rw [show (64 : Nat) = 63 + 1 from rfl, read_succ]
  rw [ensure, if_pos hnb, next_of_eof_false he]
  show (nextBody c).output =
    (nextBody c).output.getD (nextBody c).nextByte 0 ::
      (Read (advance (nextBody c)) 63).bytes
  rw [read_drain 63 (advance (nextBody c)) (nextBody_output_length c)
    (by rw [advance_nextByte, nextBody_nextByte])]
  rw [advance_output, advance_nextByte, nextBody_nextByte]
  exact eq_head_drop _ (nextBody_output_length c)

/-- Claim C5: For every block index n, Seek(n) followed by reading 64 bytes
on a cipher with any prior history of operations equals the same on the
freshly constructed cipher; and Seek(0) reproduces the cipher's initial
keystream from construction. -/
theorem C5_seek_deterministic (key iv : List Nat) (r : Int) (c0 c : Cipher)
    (h0 : New key iv r = NewResult.ok c0) (hr : Reaches c0 c) (n : Nat) :
    Read (Seek c n) 64 = Read (Seek c0 n) 64 ∧
    (Read (Seek c0 0) 64).bytes = (Read c0 64).bytes := by
  constructor
  · rw [seek_congr (reaches_core hr) n]
  · rw [New] at h0
    split at h0
    · injection h0 with h0'
      subst h0'
      exact seek_zero_read _ rfl rfl rfl (by norm_num)
    · exact absurd h0 (by simp)

/-- Witness for C5 at the fresh 0-round all-zero cipher with n = 3. -/
theorem C5_witness :
    Read (Seek fresh0 3) 64 = Read (Seek fresh0 3) 64 ∧
    (Read (Seek fresh0 0) 64).bytes = (Read fresh0 64).bytes :=
  C5_seek_deterministic zeroKey zeroNonce 0 fresh0 fresh0 rfl (Reaches.refl fresh0) 3

/-! ## Claim C6 -/

theorem read_full (k : Nat) : ∀ c : Cipher,
    (Read c k).isEOF = false → (Read c k).bytes.length = k := by
  induction k with
  | zero => intro c _; rfl
  | succ k ih =>
    intro c h
    rw [read_succ] at h ⊢
    cases hE : ensure c with
    | error e =>
      rw [hE] at h
      exact absurd (show (true : Bool) = false from h) (by simp)
    | ok c1 =>
      rw [hE] at h
      have h' : (Read (advance c1) k).isEOF = false := h
      show (c1.output.getD c1.nextByte 0 :: (Read (advance c1) k).bytes).length = k + 1
      rw [List.length_cons, ih (advance c1) h']

theorem read_eof_facts (k : Nat) : ∀ c : Cipher, (Read c k).isEOF = true →
    (Read c k).bytes.length < k ∧ (Read c k).c.eof = true := by
  induction k with
  | zero =>
    intro c h
    exact absurd (show (false : Bool) = true from h) (by simp)
  | succ k ih =>
    intro c h
    rw [read_succ] at h ⊢
    cases hE : ensure c with
    | error e =>
      obtain ⟨hnb, heof, -⟩ := ensure_error_elim hE
      exact ⟨show ([] : List Nat).length < k + 1 by simp, heof⟩
    | ok c1 =>
      rw [hE] at h
      have h' : (Read (advance c1) k).isEOF = true := h
      obtain ⟨hlt, heof⟩ := ih (advance c1) h'
      constructor
      · show (c1.output.getD c1.nextByte 0 :: (Read (advance c1) k).bytes).length < k + 1
        rw [List.length_cons]
        omega
      · show (Read (advance c1) k).c.eof = true
        exact heof

theorem read_exhausted {c : Cipher} (he : c.eof = true) (hnb : 64 ≤ c.nextByte)
    {k : Nat} (hk : 0 < k) : Read c k = ⟨c, [], true⟩ := by
  obtain ⟨k, rfl⟩ : ∃ k', k = k' + 1 := ⟨k - 1, by omega⟩
  rw [read_succ, ensure_of_exhausted hnb he]

/-- Claim C6 counterexample: force the counter to its maximum and generate
the final block (here via `Seek`, with 0 rounds): the exhausted flag is set,
yet a subsequent `Read` of 64 bytes returns 64 bytes and no end-of-stream —
not zero bytes with end-of-stream as the claim states. -/
def cMax : Cipher := Seek fresh0 (2 ^ 64 - 1)

/-- Claim C6 counterexample theorem (see `cMax`). -/
theorem C6_counterexample :
    cMax.eof = true ∧ (Read cMax 64).bytes.length = 64 ∧ (Read cMax 64).isEOF = false :=
  ⟨rfl, rfl, rfl⟩

/-- Claim C6 (amended): a read drains the buffer, regenerating as needed;
when generation fails from exhaustion the read stops early, returning the
bytes written so far plus an end-of-stream signal (not an error); once the
exhausted flag is set AND the final block's bytes have been consumed
(cursor at or past 64), a subsequent read returns end-of-stream with zero
bytes written. -/
theorem C6_read_end_of_stream (c : Cipher) (k : Nat) :
    ((Read c k).isEOF = false → (Read c k).bytes.length = k) ∧
    ((Read c k).isEOF = true → (Read c k).bytes.length < k ∧ (Read c k).c.eof = true) ∧
    (c.eof = true → 64 ≤ c.nextByte → 0 < k → Read c k = ⟨c, [], true⟩) :=
  ⟨read_full k c, read_eof_facts k c, fun he hnb hk => read_exhausted he hnb hk⟩

/-- Witness for C6 (amended) on the concrete exhausted-and-drained cipher. -/
theorem C6_witness :
    Read (Read cMax 64).c 5 = ⟨(Read cMax 64).c, [], true⟩ :=
  (C6_read_end_of_stream (Read cMax 64).c 5).2.2 (by decide) (by decide) (by decide)

/-! ## Claim C7 -/

theorem xor_ok_length : ∀ (dst src : List Nat) (c c' : Cipher) (out : List Nat),
    XORKeyStream c dst src = XorResult.ok c' out → out.length = dst.length := by
  intro dst
  induction dst with
  | nil =>
    intro src c c' out h
    rw [XORKeyStream] at h
    injection h with h1 h2
    subst h2
    rfl
  | cons d ds ih =>
    intro src c c' out h
    rw [xor_succ] at h
    split at h
    · exact absurd h (by simp)
    · next c1 hE =>
      split at h
      · exact absurd h (by simp)
      · next s ss =>
        split at h
        · next c2 out2 hR =>
          injection h with h1 h2
          subst h2
          simp [ih ss (advance c1) c2 out2 hR]
        · next hR => exact (hR c' out h).elim

theorem xor_exhausted_panics {c : Cipher} (he : c.eof = true) (hnb : 64 ≤ c.nextByte)
    (d : Nat) (ds src : List Nat) :
    XORKeyStream c (d :: ds) src = XorResult.panicked "exhausted keystream" := by
  rw [xor_succ, ensure_of_exhausted hnb he]

/-- Claim C7: keystream exhaustion during an XOR transform panics
(`panicked`, distinct from the normal-return end-of-stream signal of the
sequential read on the same state), and the transform never returns
normally with only part of the bytes XORed: a normal return carries exactly
`len(dst)` bytes. -/
theorem C7_xor_exhaustion_aborts (c : Cipher) (dst src : List Nat) :
    (∀ c' out, XORKeyStream c dst src = XorResult.ok c' out → out.length = dst.length) ∧
    (c.eof = true → 64 ≤ c.nextByte → dst ≠ [] →
      XORKeyStream c dst src = XorResult.panicked "exhausted keystream" ∧
      Read c dst.length = ⟨c, [], true⟩) := by
  refine ⟨fun c' out h => xor_ok_length dst src c c' out h, fun he hnb hd => ?_⟩
  obtain ⟨d, ds, rfl⟩ : ∃ d ds, dst = d :: ds := by
    cases dst with
    | nil => exact absurd rfl hd
    | cons d ds => exact ⟨d, ds, rfl⟩
  exact ⟨xor_exhausted_panics he hnb d ds src, read_exhausted he hnb (by simp)⟩

/-- Witness for C7 on the concrete exhausted-and-drained cipher. -/
theorem C7_witness :
    XORKeyStream (Read cMax 64).c [0] [0] = XorResult.panicked "exhausted keystream" ∧
    Read (Read cMax 64).c 1 = ⟨(Read cMax 64).c, [], true⟩ :=
  (C7_xor_exhaustion_aborts (Read cMax 64).c [0] [0]).2 (by decide) (by decide) (by decide)

/-! ## Claim C8 -/

/-- The XOR transform applied with a destination shorter than the source. -/
def xr8 : XorResult := XORKeyStream fresh0 [0] [1, 2]

/-- Is the transform's outcome a normal return? -/
def isOkX : XorResult → Bool
  | .ok _ _ => true
  | _ => false

/-- Number of bytes written on a normal return. -/
def outLenX : XorResult → Nat
  | .ok _ out => out.length
  | _ => 0

/-- Claim C8 counterexample: `XORKeyStream` with `len(dst) = 1` and
`len(src) = 2` — mismatched lengths — completes normally and processes the
input (1 byte written); no `LengthMismatch` error is returned. -/
theorem C8_counterexample : isOkX xr8 = true ∧ outLenX xr8 = 1 := ⟨rfl, rfl⟩

theorem xor_short_src_not_ok : ∀ (dst src : List Nat) (c : Cipher),
    src.length < dst.length → ∀ c' out, XORKeyStream c dst src ≠ XorResult.ok c' out := by
  intro dst
  induction dst with
  | nil =>
    intro src c h
    exact absurd h (by simp)
  | cons d ds ih =>
    intro src c h c' out heq
    rw [xor_succ] at heq
    split at heq
    · exact absurd heq (by simp)
    · next c1 hE =>
      split at heq
      · exact absurd heq (by simp)
      · next s ss =>
        split at heq
        · next c2 out2 hR =>
          exact ih ss (advance c1) (by simp at h; omega) c2 out2 hR
        · next hR => exact (hR c' out heq).elim

theorem xor_take_src : ∀ (dst src : List Nat) (c : Cipher), dst.length ≤ src.length →
    XORKeyStream c dst src = XORKeyStream c dst (src.take dst.length) := by
  intro dst
  induction dst with
  | nil => intro src c _; rfl
  | cons d ds ih =>
    intro src c h
    cases src with
    | nil => simp at h
    | cons s ss =>
      have hlen : ds.length ≤ ss.length := by simp at h; omega
      have htake : (s :: ss).take (d :: ds).length = s :: ss.take ds.length := by
        simp
      rw [xor_succ, htake, xor_succ]
      cases hE : ensure c with
      | error e => rfl
      | ok c1 => simp only [ih ss (advance c1) hlen]

/-- Claim C8 (amended): `XORKeyStream` performs no length validation and no
`LengthMismatch` error exists; the loop processes exactly `len(dst)` bytes,
so a longer source is silently truncated to its first `len(dst)` bytes,
while a shorter source can never complete normally (the `src[i]` access
panics, unless keystream exhaustion panics first). -/
theorem C8_xor_no_length_check (c : Cipher) (dst src : List Nat) :
    (src.length < dst.length → ∀ c' out, XORKeyStream c dst src ≠ XorResult.ok c' out) ∧
    (dst.length ≤ src.length →
      XORKeyStream c dst src = XORKeyStream c dst (src.take dst.length)) :=
  ⟨fun h => xor_short_src_not_ok dst src c h, fun h => xor_take_src dst src c h⟩

/-- Witness for C8 (amended) at the concrete mismatched call. -/
theorem C8_witness :
    XORKeyStream fresh0 [0] [1, 2] = XORKeyStream fresh0 [0] ([1, 2].take [0].length) :=
  (C8_xor_no_length_check fresh0 [0] [1, 2]).2 (by decide)

/-! ## Claim C9 -/

theorem read_cursor (k : Nat) : ∀ c : Cipher, c.nextByte ≤ 64 →
    (Read c k).c.nextByte ≤ 64 := by
  induction k with
  | zero => intro c h; exact h
  | succ k ih =>
    intro c h
    rw [read_succ]
    cases hE : ensure c with
    | error e => exact h
    | ok c1 =>
      show (Read (advance c1) k).c.nextByte ≤ 64
      refine ih (advance c1) ?_
      rw [advance_nextByte]
      have := ensure_ok_lt hE
      omega

theorem xor_cursor : ∀ (dst src : List Nat) (c c' : Cipher) (out : List Nat),
    c.nextByte ≤ 64 → XORKeyStream c dst src = XorResult.ok c' out →
    c'.nextByte ≤ 64 := by
  intro dst
  induction dst with
  | nil =>
    intro src c c' out h heq
    rw [XORKeyStream] at heq
    injection heq with h1 h2
    subst h1
    exact h
  | cons d ds ih =>
    intro src c c' out h heq
    rw [xor_succ] at heq
    split at heq
    · exact absurd heq (by simp)
    · next c1 hE =>
      split at heq
      · exact absurd heq (by simp)
      · next s ss =>
        split at heq
        · next c2 out2 hR =>
          injection heq with h1 h2
          subst h1
          refine ih ss (advance c1) c2 out2 ?_ hR
          rw [advance_nextByte]
          have := ensure_ok_lt hE
          omega
        · next hR => exact (hR c' out heq).elim

/-- Claim C9: the cursor is 64 after construction, 0 after every block
generation and seek, stays within [0, 64] across reads and XOR transforms,
and whenever a byte is about to be served (after the regenerate-if-needed
prelude succeeds) the cursor is strictly less than 64. -/
theorem C9_cursor_in_range :
    (∀ key iv r c, New key iv r = NewResult.ok c → c.nextByte = 64) ∧
    (∀ c c', next c = Except.ok c' → c'.nextByte = 0) ∧
    (∀ (c : Cipher) (n : Nat), (Seek c n).nextByte = 0) ∧
    (∀ c c1, ensure c = Except.ok c1 → c1.nextByte < 64) ∧
    (∀ (c : Cipher) (k : Nat), c.nextByte ≤ 64 → (Read c k).c.nextByte ≤ 64) ∧
    (∀ (c : Cipher) (dst src : List Nat) (c' : Cipher) (out : List Nat),
      c.nextByte ≤ 64 → XORKeyStream c dst src = XorResult.ok c' out →
      c'.nextByte ≤ 64) := by
  refine ⟨?_, ?_, ?_, ?_, ?_, ?_⟩
  · intro key iv r c h
    rw [New] at h
    split at h
    · injection h with h'
      subst h'
      rfl
    · exact absurd h (by simp)
  · intro c c' h
    obtain ⟨-, rfl⟩ := next_ok_elim h
    rfl
  · intro c n
    rw [seek_eq]
    rfl
  · intro c c1 h
    exact ensure_ok_lt h
  · intro c k h
    exact read_cursor k c h
  · intro c dst src c' out h heq
    exact xor_cursor dst src c c' out h heq

/-- Witness for C9 at concrete ciphers. -/
theorem C9_witness :
    fresh0.nextByte = 64 ∧ (Seek fresh0 9).nextByte = 0 ∧
    (Read fresh0 70).c.nextByte ≤ 64 :=
  ⟨C9_cursor_in_range.1 zeroKey zeroNonce 0 fresh0 rfl,
   C9_cursor_in_range.2.2.1 fresh0 9,
   C9_cursor_in_range.2.2.2.2.1 fresh0 70 (by decide)⟩

/-! ## Claim C10 -/

/-- Two ciphers that agree on everything except the round count. -/
def sameButRounds (c d : Cipher) : Prop :=
  c.input = d.input ∧ c.output = d.output ∧ c.nextByte = d.nextByte ∧ c.eof = d.eof

theorem advance_sbr {c d : Cipher} (h : sameButRounds c d) :
    sameButRounds (advance c) (advance d) := by
  obtain ⟨hi, ho, hn, he⟩ := h
  exact ⟨hi, ho, by rw [advance_nextByte, advance_nextByte, hn], he⟩

theorem nextBody_congr {c d : Cipher} (hs : sameButRounds c d)
    (hiter : ∀ w, roundLoop c.rounds w = roundLoop d.rounds w) :
    sameButRounds (nextBody c) (nextBody d) := by
  obtain ⟨hi, ho, hn, he⟩ := hs
  simp only [sameButRounds, nextBody, hi, he, hiter]
  all_goals simp

theorem read_congr_rounds : ∀ (k : Nat) (c d : Cipher), sameButRounds c d →
    (∀ w, roundLoop c.rounds w = roundLoop d.rounds w) →
    (Read c k).bytes = (Read d k).bytes := by
  intro k
  induction k with
  | zero => intro c d hs hiter; rfl
  | succ k ih =>
    intro c d hs hiter
    obtain ⟨hi, ho, hn, he⟩ := hs
    rw [read_succ, read_succ]
    by_cases hnb : 64 ≤ c.nextByte
    · cases hcE : c.eof with
      | true =>
        rw [ensure_of_exhausted hnb hcE, ensure_of_exhausted (hn ▸ hnb) (he ▸ hcE)]
      | false =>
        rw [ensure, if_pos hnb, next_of_eof_false hcE]
        rw [show ensure d = Except.ok (nextBody d) by
          rw [ensure, if_pos (hn ▸ hnb), next_of_eof_false (he ▸ hcE)]]
        have hs' := nextBody_congr ⟨hi, ho, hn, he⟩ hiter
        obtain ⟨hi', ho', hn', he'⟩ := hs'
        show (nextBody c).output.getD (nextBody c).nextByte 0 ::
            (Read (advance (nextBody c)) k).bytes =
          (nextBody d).output.getD (nextBody d).nextByte 0 ::
            (Read (advance (nextBody d)) k).bytes
        rw [ho', hn',
          ih (advance (nextBody c)) (advance (nextBody d))
            (advance_sbr ⟨hi', ho', hn', he'⟩) hiter]
    · rw [ensure_of_served (by omega), ensure_of_served (by rw [← hn]; omega)]
      show c.output.getD c.nextByte 0 :: (Read (advance c) k).bytes =
        d.output.getD d.nextByte 0 :: (Read (advance d) k).bytes
      rw [ho, hn, ih (advance c) (advance d) (advance_sbr ⟨hi, ho, hn, he⟩) hiter]

theorem new_sbr {key iv : List Nat} {r1 r2 : Int} {c1 c2 : Cipher}
    (h1 : New key iv r1 = NewResult.ok c1) (h2 : New key iv r2 = NewResult.ok c2) :
    sameButRounds c1 c2 := by
  by_cases hc : 32 ≤ key.length ∧ 8 ≤ iv.length
  · rw [New, if_pos hc] at h1 h2
    injection h1 with e1
    injection h2 with e2
    subst e1
    subst e2
    exact ⟨rfl, rfl, rfl, rfl⟩
  · rw [New, if_neg hc] at h1
    exact absurd h1 (by simp)

theorem new_rounds {key iv : List Nat} {r : Int} {c : Cipher}
    (h : New key iv r = NewResult.ok c) : c.rounds = r := by
  by_cases hc : 32 ≤ key.length ∧ 8 ≤ iv.length
  · rw [New, if_pos hc] at h
    injection h with h'
    subst h'
    rfl
  · rw [New, if_neg hc] at h
    exact absurd h (by simp)

theorem roundLoop_odd {r : Int} (hodd : r % 2 = 1) (hge : 1 ≤ r) :
    ∀ w, roundLoop r w = roundLoop (r + 1) w := by
  intro w
  rw [roundLoop, roundLoop, roundLoopN_iterate, roundLoopN_iterate]
  have h : (r.toNat + 1) / 2 = ((r + 1).toNat + 1) / 2 := by omega
  rw [h]

/-- Claim C10: for every odd r ≥ 1 the round loop performs ⌈r/2⌉ complete
double rounds, so a cipher built with rounds = r produces a keystream
byte-identical to one built with rounds = r + 1; it is never left between a
column round and a diagonal round; and for rounds ≤ 0 the loop runs zero
iterations, the output block being the feed-forward of the unpermuted
initial state. -/
theorem C10_odd_rounds (r : Int) (hodd : r % 2 = 1) (hge : 1 ≤ r) :
    (∀ s, roundLoop r s = doubleRound^[((r + 1) / 2).toNat] s) ∧
    (∀ key iv c1 c2 k, New key iv r = NewResult.ok c1 →
      New key iv (r + 1) = NewResult.ok c2 → (Read c1 k).bytes = (Read c2 k).bytes) ∧
    (∀ z : Int, z ≤ 0 → ∀ s, roundLoop z s = s) ∧
    (∀ c : Cipher, c.eof = false → c.rounds ≤ 0 →
      next c = Except.ok (nextBody c) ∧
      (nextBody c).output = serialize16 (ffWords c.input c.input)) := by
  refine ⟨?_, ?_, ?_, ?_⟩
  · intro s
    rw [roundLoop, roundLoopN_iterate]
    have h : (r.toNat + 1) / 2 = ((r + 1) / 2).toNat := by omega
    rw [h]
  · intro key iv c1 c2 k h1 h2
    refine read_congr_rounds k c1 c2 (new_sbr h1 h2) ?_
    rw [new_rounds h1, new_rounds h2]
    exact roundLoop_odd hodd hge
  · intro z hz s
    rw [roundLoop]
    have h : z.toNat = 0 := by omega
    rw [h]
    rfl
  · intro c he hr
    refine ⟨next_of_eof_false he, ?_⟩
    rw [nextBody_output, roundLoop]
    have h : c.rounds.toNat = 0 := by omega
    rw [h]
    rfl

/-- Fresh 1-round cipher with all-zero key and nonce (cheap fixture). -/
def fresh1 : Cipher := okOr (New zeroKey zeroNonce 1) dummyCipher

/-- Witness for C10 at r = 1: 1-round and 2-round keystreams agree. -/
theorem C10_witness :
    roundLoop 1 fresh0.input = doubleRound^[(((1 : Int) + 1) / 2).toNat] fresh0.input ∧
    (Read fresh1 5).bytes = (Read fresh2 5).bytes :=
  ⟨(C10_odd_rounds 1 (by decide) (by decide)).1 fresh0.input,
   (C10_odd_rounds 1 (by decide) (by decide)).2.1 zeroKey zeroNonce fresh1 fresh2 5 rfl rfl⟩

end ChaChaGo
